import Mathlib

/-!
Verification development for the lookup core of the yomitan-api service:
the kanji/non-kanji segmenter, the SQLite term-search adapter, and the
response simplifier are shallowly embedded and checked against the
specification's claims.
-/

set_option maxHeartbeats 1000000

namespace YomitanApi

/-! ### Segmenter (source: `isKanji`, `containsKanji`, `splitByKanji` and the
`termsToLookup` flatMap of the `/yomitan/api/term/simple/:term` route).
Strings are embedded as lists of characters. -/

/-- Embeds `isKanji`: the character code is in the inclusive range
`0x4e00 .. 0x9faf`. -/
def isKanji (c : Char) : Bool :=
  decide (0x4e00 ≤ c.toNat) && decide (c.toNat ≤ 0x9faf)

/-- Embeds `containsKanji`: the regex test `/[一-龯]/.test(text)`. -/
def containsKanji (text : List Char) : Bool :=
  text.any isKanji

/-- The loop of `splitByKanji`: `currentSegment` accumulates consecutive
characters of the same class `currentIsKanji`; a class change pushes the
segment and restarts. -/
def splitByKanjiGo : List Char → List Char → Bool → List (List Char)
  | [], currentSegment, _ => [currentSegment]
  | c :: rest, currentSegment, currentIsKanji =>
    if isKanji c = currentIsKanji then
      splitByKanjiGo rest (currentSegment ++ [c]) currentIsKanji
    else
      currentSegment :: splitByKanjiGo rest [c] (isKanji c)

/-- Embeds `splitByKanji`: empty input yields no segments; otherwise the loop
starts with the first character as the current segment. -/
def splitByKanji : List Char → List (List Char)
  | [] => []
  | c :: rest => splitByKanjiGo rest [c] (isKanji c)

/-- A token as reported by the external kuromoji tokenizer: its surface form
and its word type (the classification string, `"UNKNOWN"` for unrecognized). -/
structure KuromojiToken where
  surface_form : List Char
  word_type : String
deriving DecidableEq

/-- Embeds the `termsToLookup` computation of the simple-lookup route: each
segment containing kanji is tokenized (keeping only tokens whose word type is
not `"UNKNOWN"`, taking their surface forms); other segments pass through
verbatim. The external tokenizer is a parameter. -/
def termsToLookup (tokenize : List Char → List KuromojiToken) (text : List Char) :
    List (List Char) :=
  (splitByKanji text).flatMap fun segment =>
    if containsKanji segment then
      ((tokenize segment).filter fun t => t.word_type != "UNKNOWN").map
        fun t => t.surface_form
    else [segment]

theorem splitByKanjiGo_flatten (rest : List Char) :
    ∀ seg b, (splitByKanjiGo rest seg b).flatten = seg ++ rest := by
  induction rest with
  | nil => intro seg b; simp [splitByKanjiGo]
  | cons c cs ih =>
    intro seg b
    by_cases h : isKanji c = b
    · simp [splitByKanjiGo, h, ih]
    · simp [splitByKanjiGo, h, ih]

theorem splitByKanjiGo_ne_nil (rest : List Char) :
    ∀ seg b, seg ≠ [] → ∀ s ∈ splitByKanjiGo rest seg b, s ≠ [] := by
  induction rest with
  | nil => intro seg b hseg s hs; simp [splitByKanjiGo] at hs; simpa [hs] using hseg
  | cons c cs ih =>
    intro seg b hseg s hs
    by_cases h : isKanji c = b
    · simp only [splitByKanjiGo, h, if_pos rfl] at hs
      exact ih (seg ++ [c]) b (by simp) s (by simpa using hs)
    · simp only [splitByKanjiGo, h, if_neg] at hs
      rcases List.mem_cons.mp hs with h1 | h2
      · simpa [h1] using hseg
      · exact ih [c] (isKanji c) (by simp) s h2

theorem splitByKanjiGo_all_same (rest : List Char) :
    ∀ seg, (∀ c ∈ rest, isKanji c = false) →
      splitByKanjiGo rest seg false = [seg ++ rest] := by
  induction rest with
  | nil => intro seg _; simp [splitByKanjiGo]
  | cons c cs ih =>
    intro seg hall
    have hc : isKanji c = false := hall c (by simp)
    simp only [splitByKanjiGo, hc, if_pos rfl]
    rw [ih (seg ++ [c]) (fun d hd => hall d (by simp [hd]))]
    simp

/-- C10: segmentation is lossless before tokenization: the segments returned by
`splitByKanji` concatenate, in order, to exactly the input, and every returned
segment is non-empty. -/
theorem C10_split_lossless (text : List Char) :
    (splitByKanji text).flatten = text ∧ ∀ seg ∈ splitByKanji text, seg ≠ [] := by
  cases text with
  | nil => simp [splitByKanji]
  | cons c rest =>
    constructor
    · simpa using splitByKanjiGo_flatten rest [c] (isKanji c)
    · exact splitByKanjiGo_ne_nil rest [c] (isKanji c) (by simp)

/-- Witness for C10 at a concrete mixed input. -/
theorem C10_split_lossless_witness :
    ['a'] ∈ splitByKanji ['a', '猫'] ∧ ['a'] ≠ ([] : List Char) :=
  ⟨by decide, (C10_split_lossless ['a', '猫']).2 ['a'] (by decide)⟩

/-- C8: segmenting the empty string yields no lookup units, and a non-empty
string containing no character of the CJK Unified Ideographs block
(`0x4E00 .. 0x9FFF`) is passed through as the single lookup unit, for every
external tokenizer. -/
theorem C8_segmentation (tokenize : List Char → List KuromojiToken) :
    termsToLookup tokenize [] = [] ∧
    ∀ text : List Char, text ≠ [] →
      (∀ c ∈ text, ¬(0x4E00 ≤ c.toNat ∧ c.toNat ≤ 0x9FFF)) →
      termsToLookup tokenize text = [text] := by
  constructor
  · simp [termsToLookup, splitByKanji]
  · intro text hne hrange
    have hall : ∀ c ∈ text, isKanji c = false := by
      intro c hc
      by_contra h
      have hk : isKanji c = true := by
        cases hkb : isKanji c
        · exact absurd hkb h
        · rfl
      have := hrange c hc
      simp only [isKanji, Bool.and_eq_true, decide_eq_true_eq] at hk
      exact this ⟨hk.1, le_trans hk.2 (by norm_num)⟩
    have hsplit : splitByKanji text = [text] := by
      cases text with
      | nil => exact absurd rfl hne
      | cons c rest =>
        have hc : isKanji c = false := hall c (by simp)
        simp only [splitByKanji, hc]
        exact splitByKanjiGo_all_same rest [c] (fun d hd => hall d (by simp [hd]))
    have hck : containsKanji text = false := by
      simp only [containsKanji, List.any_eq_false]
      intro c hc
      simp [hall c hc]
    simp [termsToLookup, hsplit, hck]

/-- Witness for C8 at a concrete kanji-free input and a concrete tokenizer. -/
theorem C8_segmentation_witness :
    (['a', 'b'] ≠ ([] : List Char)) ∧
    (∀ c ∈ ['a', 'b'], ¬(0x4E00 ≤ c.toNat ∧ c.toNat ≤ 0x9FFF)) ∧
    termsToLookup (fun _ => []) ['a', 'b'] = [['a', 'b']] :=
  ⟨by decide, by decide,
    (C8_segmentation (fun _ => [])).2 ['a', 'b'] (by decide) (by decide)⟩

/-! ### Response simplification, dedup stage (source: `simplifyResponse` in
`simplify-response.js`, the `seenSequences` loop). The dedup key of an entry is
`entry.definitions[0]?.sequences?.[0]`; the JavaScript truthiness test
`if (sequence && ...)` treats a missing key and the number `0` as falsy and
every other number (including `-1`) as truthy. -/

/-- A definition of a dictionary entry, carrying its sequence numbers. -/
structure TermDefinition where
  sequences : List Int
deriving DecidableEq

/-- A dictionary entry as consumed by `simplifyResponse`, restricted to the
fields the dedup stage reads plus the owning dictionary. -/
structure DictionaryEntry where
  dictionary : String
  definitions : List TermDefinition
deriving DecidableEq

/-- The dedup key `entry.definitions[0]?.sequences?.[0]`: `none` when the entry
has no definition or its first definition has no sequence number. -/
def seqKey (entry : DictionaryEntry) : Option Int :=
  entry.definitions.head?.bind fun d => d.sequences.head?

/-- Embeds the `uniqueEntries` loop of `simplifyResponse`: an entry whose key
is truthy and already in `seenSequences` is skipped; a truthy key is recorded;
every kept entry is pushed in input order. -/
def dedupBySequence : List DictionaryEntry → List Int → List DictionaryEntry
  | [], _ => []
  | entry :: rest, seenSequences =>
    match seqKey entry with
    | some sequence =>
      if sequence ≠ 0 ∧ sequence ∈ seenSequences then
        dedupBySequence rest seenSequences
      else if sequence ≠ 0 then
        entry :: dedupBySequence rest (sequence :: seenSequences)
      else
        entry :: dedupBySequence rest seenSequences
    | none => entry :: dedupBySequence rest seenSequences

/-- The truthy dedup key of an entry: its `seqKey` when that is a non-zero
number, `none` otherwise (mirroring JavaScript truthiness of the key). -/
def truthySeq (entry : DictionaryEntry) : Option Int :=
  (seqKey entry).bind fun s => if s = 0 then none else some s

theorem truthySeq_eq_some_iff (e : DictionaryEntry) (k : Int) :
    truthySeq e = some k ↔ seqKey e = some k ∧ k ≠ 0 := by
  cases hsk : seqKey e with
  | none => simp [truthySeq, hsk]
  | some s =>
    by_cases hs0 : s = 0
    · subst hs0
      simp only [truthySeq, hsk, Option.some_bind, if_pos rfl]
      constructor
      · intro h; exact absurd h (by simp)
      · rintro ⟨h1, h2⟩
        exact absurd (Option.some.inj h1).symm h2
    · simp only [truthySeq, hsk, Option.some_bind, if_neg hs0]
      constructor
      · intro h
        have hk := Option.some.inj h
        subst hk
        exact ⟨rfl, hs0⟩
      · intro h
        exact h.1

theorem dedup_sublist (l : List DictionaryEntry) :
    ∀ seen, (dedupBySequence l seen).Sublist l := by
  induction l with
  | nil => intro seen; simp [dedupBySequence]
  | cons e rest ih =>
    intro seen
    simp only [dedupBySequence]
    cases hk : seqKey e with
    | none => exact (ih seen).cons₂ e
    | some s =>
      by_cases h1 : s ≠ 0 ∧ s ∈ seen
      · simp only [if_pos h1]
        exact (ih seen).cons e
      · simp only [if_neg h1]
        by_cases h2 : s ≠ 0
        · simp only [if_pos h2]
          exact (ih (s :: seen)).cons₂ e
        · simp only [if_neg h2]
          exact (ih seen).cons₂ e

theorem dedup_keys_fresh (l : List DictionaryEntry) :
    ∀ seen, ((dedupBySequence l seen).filterMap truthySeq).Nodup ∧
      ∀ k ∈ (dedupBySequence l seen).filterMap truthySeq, k ∉ seen := by
  induction l with
  | nil => intro seen; simp [dedupBySequence]
  | cons e rest ih =>
    intro seen
    simp only [dedupBySequence]
    cases hk : seqKey e with
    | none =>
      have he : truthySeq e = none := by simp [truthySeq, hk]
      simpa [List.filterMap_cons, he] using ih seen
    | some s =>
      by_cases h1 : s ≠ 0 ∧ s ∈ seen
      · simp only [if_pos h1]
        exact ih seen
      · simp only [if_neg h1]
        by_cases h2 : s ≠ 0
        · simp only [if_pos h2]
          have he : truthySeq e = some s := by simp [truthySeq, hk, h2]
          have ihs := ih (s :: seen)
          refine ⟨?_, ?_⟩
          · simp only [List.filterMap_cons, he, List.nodup_cons]
            refine ⟨fun hmem => ?_, ihs.1⟩
            exact (ihs.2 s hmem) (by simp)
          · intro k hkmem
            simp only [List.filterMap_cons, he, List.mem_cons] at hkmem
            rcases hkmem with rfl | hkmem
            · intro hks
              exact h1 ⟨h2, hks⟩
            · intro hks
              exact (ihs.2 k hkmem) (by simp [hks])
        · simp only [if_neg h2]
          have he : truthySeq e = none := by
            push_neg at h2
            simp [truthySeq, hk, h2]
          simpa [List.filterMap_cons, he] using ih seen

theorem dedup_falsy_count (l : List DictionaryEntry) (e : DictionaryEntry)
    (hfalsy : truthySeq e = none) :
    ∀ seen, (dedupBySequence l seen).count e = l.count e := by
  induction l with
  | nil => intro seen; rfl
  | cons h rest ih =>
    intro seen
    simp only [dedupBySequence]
    cases hk : seqKey h with
    | none => simp [List.count_cons, ih seen]
    | some s =>
      by_cases h1 : s ≠ 0 ∧ s ∈ seen
      · simp only [if_pos h1]
        have hne : h ≠ e := by
          intro heq
          rw [heq] at hk
          have hsome : truthySeq e = some s := by simp [truthySeq, hk, h1.1]
          rw [hfalsy] at hsome
          exact Option.noConfusion hsome
        rw [List.count_cons_of_ne (Ne.symm hne)]
        exact ih seen
      · simp only [if_neg h1]
        by_cases h2 : s ≠ 0
        · simp only [if_pos h2]
          simp [List.count_cons, ih (s :: seen)]
        · simp only [if_neg h2]
          simp [List.count_cons, ih seen]

theorem dedup_first_mem (l : List DictionaryEntry) :
    ∀ (seen : List Int) (k : Int) (e : DictionaryEntry), k ∉ seen →
      l.find? (fun x => truthySeq x == some k) = some e →
      e ∈ dedupBySequence l seen := by
  induction l with
  | nil => intro seen k e _ hfind; simp at hfind
  | cons h rest ih =>
    intro seen k e hk hfind
    by_cases hh : truthySeq h = some k
    · rw [List.find?_cons_of_pos _ (by simp [hh])] at hfind
      have he : h = e := Option.some.inj hfind
      subst he
      have hkey := (truthySeq_eq_some_iff h k).mp hh
      simp only [dedupBySequence, hkey.1]
      have hcond : ¬(k ≠ 0 ∧ k ∈ seen) := fun hc => hk hc.2
      simp only [if_neg hcond, if_pos hkey.2]
      simp
    · rw [List.find?_cons_of_neg _ (by simp [hh])] at hfind
      simp only [dedupBySequence]
      cases hsk : seqKey h with
      | none => exact List.mem_cons_of_mem h (ih seen k e hk hfind)
      | some s =>
        by_cases h1 : s ≠ 0 ∧ s ∈ seen
        · simp only [if_pos h1]
          exact ih seen k e hk hfind
        · simp only [if_neg h1]
          by_cases h2 : s ≠ 0
          · simp only [if_pos h2]
            refine List.mem_cons_of_mem h (ih (s :: seen) k e ?_ hfind)
            intro hmem
            rcases List.mem_cons.mp hmem with heq | hmem
            · subst heq
              exact hh ((truthySeq_eq_some_iff h k).mpr ⟨hsk, h2⟩)
            · exact hk hmem
          · simp only [if_neg h2]
            exact List.mem_cons_of_mem h (ih seen k e hk hfind)

/-- C1 (amended): the dedup stage of `simplifyResponse` keeps a sublist of the
input (first occurrences, order preserved), never keeps two entries with the
same truthy dedup key, never drops an entry whose key is falsy (missing or 0),
and keeps the first entry bearing any given truthy key. Entries with sequence
`-1` are NOT exempt: `-1` is truthy and is deduplicated like any other key (see
the counterexample). -/
theorem C1_dedup_by_sequence (l : List DictionaryEntry) :
    (dedupBySequence l []).Sublist l ∧
    ((dedupBySequence l []).filterMap truthySeq).Nodup ∧
    (∀ e, truthySeq e = none → (dedupBySequence l []).count e = l.count e) ∧
    (∀ (k : Int) (e : DictionaryEntry),
      l.find? (fun x => truthySeq x == some k) = some e →
      e ∈ dedupBySequence l []) :=
  ⟨dedup_sublist l [], (dedup_keys_fresh l []).1,
    fun e he => dedup_falsy_count l e he [],
    fun k e hfind => dedup_first_mem l [] k e (by simp) hfind⟩

/-- First sample entry with sequence -1 (ungrouped), dictionary "D". -/
def entNegOneA : DictionaryEntry := ⟨"D", [⟨[-1]⟩]⟩

/-- Second sample entry with sequence -1 (ungrouped), dictionary "E". -/
def entNegOneB : DictionaryEntry := ⟨"E", [⟨[-1]⟩]⟩

/-- Sample entry with no sequence number at all. -/
def entNoSeq : DictionaryEntry := ⟨"D", []⟩

/-- C1 counterexample: two distinct entries both carrying sequence `-1` do NOT
both survive the dedup stage — `-1` is truthy in JavaScript, so the second is
dropped, contradicting the claim that ungrouped entries are never deduplicated
against each other. -/
theorem C1_counterexample :
    dedupBySequence [entNegOneA, entNegOneB] [] = [entNegOneA] ∧
    entNegOneB ≠ entNegOneA := by decide

/-- Witness for C1 at concrete inputs. -/
theorem C1_dedup_by_sequence_witness :
    truthySeq entNoSeq = none ∧
    (dedupBySequence [entNoSeq, entNoSeq] []).count entNoSeq =
      [entNoSeq, entNoSeq].count entNoSeq ∧
    entNegOneA ∈ dedupBySequence [entNegOneA, entNegOneB] [] :=
  ⟨by decide,
    (C1_dedup_by_sequence [entNoSeq, entNoSeq]).2.2.1 entNoSeq (by decide),
    (C1_dedup_by_sequence [entNegOneA, entNegOneB]).2.2.2 (-1) entNegOneA (by decide)⟩

/-- C9: the dedup key is solely the first definition's first sequence number
and ignores the dictionary: two entries from different dictionaries with equal
truthy keys collapse to the first; an entry whose key is missing or 0 (falsy)
is never dropped and never blocks a later entry (the seen-set is unchanged). -/
theorem C9_dedup_key_ignores_dictionary :
    (∀ (e1 e2 : DictionaryEntry) (k : Int), seqKey e1 = some k →
      seqKey e2 = some k → k ≠ 0 → e1.dictionary ≠ e2.dictionary →
      dedupBySequence [e1, e2] [] = [e1]) ∧
    (∀ (e : DictionaryEntry) (l : List DictionaryEntry) (seen : List Int),
      truthySeq e = none →
      dedupBySequence (e :: l) seen = e :: dedupBySequence l seen) := by
  constructor
  · intro e1 e2 k h1 h2 hk _
    simp only [dedupBySequence, h1, h2]
    have hc1 : ¬(k ≠ 0 ∧ k ∈ ([] : List Int)) := by simp
    simp only [if_neg hc1, if_pos hk]
    have hc2 : k ≠ 0 ∧ k ∈ [k] := ⟨hk, by simp⟩
    simp only [if_pos hc2]
  · intro e l seen hfalsy
    simp only [dedupBySequence]
    cases hk : seqKey e with
    | none => rfl
    | some s =>
      have hs0 : s = 0 := by
        by_contra hs
        simp [truthySeq, hk, hs] at hfalsy
      subst hs0
      simp

/-- Witness for C9 at concrete inputs. -/
theorem C9_dedup_key_ignores_dictionary_witness :
    seqKey entNegOneA = some (-1) ∧ seqKey entNegOneB = some (-1) ∧
    ((-1 : Int) ≠ 0) ∧ entNegOneA.dictionary ≠ entNegOneB.dictionary ∧
    dedupBySequence [entNegOneA, entNegOneB] [] = [entNegOneA] ∧
    truthySeq entNoSeq = none ∧
    dedupBySequence [entNoSeq, entNegOneA] [] =
      entNoSeq :: dedupBySequence [entNegOneA] [] :=
  ⟨by decide, by decide, by decide, by decide,
    C9_dedup_key_ignores_dictionary.1 entNegOneA entNegOneB (-1)
      (by decide) (by decide) (by decide) (by decide),
    by decide,
    C9_dedup_key_ignores_dictionary.2 entNoSeq [entNegOneA] [] (by decide)⟩

/-! ### Structured-content trees (source: `walkContent`, `extractTextContent`,
`extractRubyBase`, `extractExample` in `simplify-response.js`).
A content value is JavaScript `undefined`/`null`, a plain string, an array
(encoded as a cons list), or a tagged element object carrying optional `tag`,
`lang`, `data.content` and `title` attributes plus a `content` child. -/

/-- A structured-content value. `obj tag lang dataContent title child` embeds a
JavaScript element object; arrays are encoded as `nil`/`cons` spines. -/
inductive Content where
  | undef : Content
  | str : String → Content
  | nil : Content
  | cons : Content → Content → Content
  | obj : Option String → Option String → Option String → Option String →
      Content → Content
deriving DecidableEq

/-- JavaScript truthiness of a content value: `undefined` and the empty string
are falsy; arrays and objects are truthy. -/
def contentTruthy : Content → Bool
  | .undef => false
  | .str s => s != ""
  | _ => true

/-- Embeds `walkContent`: the pre-order list of element objects visited. A
falsy value contributes nothing, an array is walked element by element, an
object is visited and then its `content` child is walked when truthy. -/
def walkContent : Content → List Content
  | .undef => []
  | .str _ => []
  | .nil => []
  | .cons head tail => walkContent head ++ walkContent tail
  | .obj tag lang dataContent title child =>
    Content.obj tag lang dataContent title child ::
      (if contentTruthy child then walkContent child else [])

mutual

/-- Embeds `extractTextContent`: strings pass through, arrays concatenate their
items, a `ruby` element delegates to `extractRubyBase` on its child, an `rt`
element contributes nothing, any other element recurses into its child. -/
def extractTextContent : Content → String
  | .undef => ""
  | .str s => s
  | .nil => ""
  | .cons head tail => extractTextContent head ++ extractTextContent tail
  | .obj tag _ _ _ child =>
    if tag = some "ruby" then extractRubyBase child
    else if tag = some "rt" then ""
    else extractTextContent child
termination_by structural x => x

/-- Embeds `extractRubyBase`: a string passes through; an array joins its
items, where an `rt`-tagged element item is filtered out, a string item passes
through, any other object/array item is rendered with `extractTextContent`,
and an `undefined` item renders as empty; a bare object yields the empty
string. -/
def extractRubyBase : Content → String
  | .undef => ""
  | .str s => s
  | .nil => ""
  | .cons head tail =>
    (match head with
     | .str s => s
     | .undef => ""
     | .obj tag _ _ _ _ => if tag = some "rt" then "" else extractTextContent head
     | _ => extractTextContent head) ++ extractRubyBase tail
  | .obj _ _ _ _ _ => ""
termination_by structural x => x

end

/-- The english strings collected by the inner walk of `extractExample` over an
`example-sentence-b` child: every visited element with `lang == "en"` whose
`content` is a string assigns that string. -/
def exampleEnglishOf (child : Content) : List String :=
  (walkContent child).filterMap fun node =>
    match node with
    | .obj _ (some "en") _ _ (.str s) => some s
    | _ => none

/-- An example-sentence pair as built by `extractExample` (the source fields
are named `japanese` and `english`; the spec calls them source and target
text). -/
structure ExamplePair where
  japanese : String
  english : String
deriving DecidableEq

/-- The `example-sentence-a` callback body of `extractExample`: a node marked
`example-sentence-a` assigns the extracted text of its child. -/
def exampleJapaneseOf (node : Content) : Option String :=
  match node with
  | .obj _ _ (some "example-sentence-a") _ child => some (extractTextContent child)
  | _ => none

/-- The `example-sentence-b` callback body of `extractExample`: a node marked
`example-sentence-b` runs the inner english walk over its child. -/
def exampleBEnglish (node : Content) : List String :=
  match node with
  | .obj _ _ (some "example-sentence-b") _ child => exampleEnglishOf child
  | _ => []

/-- Embeds `extractExample`: walking the content, every node marked
`example-sentence-a` overwrites `japanese` with its extracted text and every
node marked `example-sentence-b` re-runs the inner english walk, so the LAST
assignment of each variable wins; the pair is returned unless both strings
ended up empty. -/
def extractExample (content : Content) : Option ExamplePair :=
  let nodes := walkContent content
  let japanese := (nodes.filterMap exampleJapaneseOf).getLastD ""
  let english := (nodes.flatMap exampleBEnglish).getLastD ""
  if japanese != "" || english != "" then some ⟨japanese, english⟩ else none

/-! ### C5: ruby furigana never contributes to extracted plain text. -/

/-- Replaces the `content` child of every `rt`-tagged element by `u`, leaving
everything else untouched: two trees related this way agree outside `rt`
subtrees. -/
def replaceRtChildren (u : Content) : Content → Content
  | .undef => .undef
  | .str s => .str s
  | .nil => .nil
  | .cons head tail => .cons (replaceRtChildren u head) (replaceRtChildren u tail)
  | .obj tag lang dataContent title child =>
    if tag = some "rt" then .obj tag lang dataContent title u
    else .obj tag lang dataContent title (replaceRtChildren u child)

theorem replaceRt_preserves_extract (u : Content) (t : Content) :
    extractTextContent (replaceRtChildren u t) = extractTextContent t ∧
    extractRubyBase (replaceRtChildren u t) = extractRubyBase t := by
  induction t with
  | undef => exact ⟨rfl, rfl⟩
  | str s => exact ⟨rfl, rfl⟩
  | nil => exact ⟨rfl, rfl⟩
  | cons head tail ihh iht =>
    constructor
    · simp only [replaceRtChildren, extractTextContent, ihh.1, iht.1]
    · cases head with
      | undef => simp only [replaceRtChildren, extractRubyBase, iht.2]
      | str s => simp only [replaceRtChildren, extractRubyBase, iht.2]
      | nil => simp only [replaceRtChildren, extractRubyBase, iht.2]
      | cons a b =>
        have hh : extractTextContent
            (Content.cons (replaceRtChildren u a) (replaceRtChildren u b)) =
            extractTextContent (Content.cons a b) := by
          simpa only [replaceRtChildren] using ihh.1
        simp [replaceRtChildren, extractRubyBase, iht.2, hh]
      | obj tag lang dc ti child =>
        by_cases hrt : tag = some "rt"
        · subst hrt
          simp [replaceRtChildren, extractRubyBase, iht.2]
        · have hh : extractTextContent
              (Content.obj tag lang dc ti (replaceRtChildren u child)) =
              extractTextContent (Content.obj tag lang dc ti child) := by
            simpa only [replaceRtChildren, if_neg hrt] using ihh.1
          simp [replaceRtChildren, extractRubyBase, hrt, iht.2, hh]
  | obj tag lang dc ti child ihc =>
    by_cases hrt : tag = some "rt"
    · subst hrt
      constructor
      · simp [replaceRtChildren, extractTextContent]
      · simp [replaceRtChildren, extractRubyBase]
    · constructor
      · simp only [replaceRtChildren, if_neg hrt, extractTextContent, ihc.1, ihc.2]
      · simp only [replaceRtChildren, if_neg hrt, extractRubyBase]

/-- The ruby element of the specification's example: base text `"猫"` with an
`rt` furigana child `"ねこ"`. -/
def rubyNekoNode : Content :=
  .obj (some "ruby") none none none
    (.cons (.str "猫") (.cons (.obj (some "rt") none none none (.str "ねこ")) .nil))

/-- C5: plain-text extraction never lets an `rt`-tagged node contribute: both
extraction paths (`extractTextContent` and the ruby-base path
`extractRubyBase`) are invariant under replacing every `rt` node's content by
anything, an `rt`-tagged element itself always extracts to the empty string,
and the ruby element wrapping base `"猫"` with `rt` child `"ねこ"` extracts to
exactly `"猫"`. -/
theorem C5_rt_never_contributes :
    (∀ u t : Content,
      extractTextContent (replaceRtChildren u t) = extractTextContent t) ∧
    (∀ u t : Content,
      extractRubyBase (replaceRtChildren u t) = extractRubyBase t) ∧
    (∀ (lang dataContent title : Option String) (child : Content),
      extractTextContent (.obj (some "rt") lang dataContent title child) = "") ∧
    extractTextContent rubyNekoNode = "猫" :=
  ⟨fun u t => (replaceRt_preserves_extract u t).1,
   fun u t => (replaceRt_preserves_extract u t).2,
   fun lang dataContent title child => by simp [extractTextContent],
   by decide⟩

/-! ### C3: the example-sentence pair. -/

/-- An `example-sentence-a` node carrying the given source-language string. -/
def mkExampleA (s : String) : Content :=
  .obj none none (some "example-sentence-a") none (.str s)

/-- A span carrying `lang="en"` and the given string content. -/
def mkEnSpan (s : String) : Content :=
  .obj (some "span") (some "en") none none (.str s)

/-- An array of `lang="en"` spans, one per string. -/
def mkSpanList : List String → Content
  | [] => .nil
  | s :: rest => .cons (mkEnSpan s) (mkSpanList rest)

/-- An `example-sentence-b` node with the given child content. -/
def mkExampleB (c : Content) : Content :=
  .obj none none (some "example-sentence-b") none c

theorem mkSpanList_truthy (ss : List String) :
    contentTruthy (mkSpanList ss) = true := by
  cases ss <;> simp [mkSpanList, contentTruthy]

theorem walk_mkSpanList (ss : List String) :
    walkContent (mkSpanList ss) = ss.map mkEnSpan := by
  induction ss with
  | nil => rfl
  | cons s rest ih =>
    simp [mkSpanList, walkContent, mkEnSpan, contentTruthy, ih]

theorem en_of_mkSpanList (ss : List String) :
    exampleEnglishOf (mkSpanList ss) = ss := by
  rw [exampleEnglishOf, walk_mkSpanList]
  induction ss with
  | nil => rfl
  | cons s rest ih => simpa [mkEnSpan] using ih

theorem spans_filterMap_japanese (ss : List String) :
    (ss.map mkEnSpan).filterMap exampleJapaneseOf = [] := by
  induction ss with
  | nil => rfl
  | cons s rest ih => simpa [mkEnSpan, exampleJapaneseOf] using ih

theorem spans_flatMap_english (ss : List String) :
    (ss.map mkEnSpan).flatMap exampleBEnglish = [] := by
  induction ss with
  | nil => rfl
  | cons s rest ih => simpa [mkEnSpan, exampleBEnglish] using ih

/-- C3 (amended): an example-sentence content with an `example-sentence-a`
child of non-empty text `sA` and an `example-sentence-b` child holding
`lang="en"` spans `ss` produces the pair whose `japanese` (sourceText) field
is `sA` and whose `english` (targetText) field is the LAST span's text — each
matching descendant overwrites the previous assignment, so when several
`lang="en"` descendants exist the last one's text is used, not the first. -/
theorem C3_example_pair_last_english (sA : String) (ss : List String)
    (hA : sA ≠ "") :
    extractExample (.cons (mkExampleA sA) (.cons (mkExampleB (mkSpanList ss)) .nil)) =
      some ⟨sA, ss.getLastD ""⟩ := by
  have hwalk :
      walkContent (.cons (mkExampleA sA) (.cons (mkExampleB (mkSpanList ss)) .nil)) =
        mkExampleA sA :: mkExampleB (mkSpanList ss) :: ss.map mkEnSpan := by
    simp [walkContent, mkExampleA, mkExampleB, mkSpanList_truthy, walk_mkSpanList]
  have hjaA : exampleJapaneseOf (mkExampleA sA) = some sA := rfl
  have hjaB : exampleJapaneseOf (mkExampleB (mkSpanList ss)) = none := rfl
  have henA : exampleBEnglish (mkExampleA sA) = [] := rfl
  have henB : exampleBEnglish (mkExampleB (mkSpanList ss)) =
      exampleEnglishOf (mkSpanList ss) := rfl
  have hja :
      ((mkExampleA sA :: mkExampleB (mkSpanList ss) :: ss.map mkEnSpan).filterMap
        exampleJapaneseOf).getLastD "" = sA := by
    simp only [List.filterMap_cons, hjaA, hjaB, spans_filterMap_japanese]
    rfl
  have hen :
      ((mkExampleA sA :: mkExampleB (mkSpanList ss) :: ss.map mkEnSpan).flatMap
        exampleBEnglish).getLastD "" = ss.getLastD "" := by
    simp only [List.flatMap_cons, henA, henB, spans_flatMap_english,
      en_of_mkSpanList, List.nil_append, List.append_nil]
  simp only [extractExample]
  rw [hwalk, hja, hen]
  have hbne : (sA != "") = true := by simpa [bne_iff_ne] using hA
  simp [hbne]

/-- The example-sentence tree of the specification's own example, with a
second english span appended after `"There is a cat."`. -/
def exampleTreeTwoEn : Content :=
  .cons (mkExampleA "猫がいる。")
    (.cons (mkExampleB (mkSpanList ["There is a cat.", "Second translation."])) .nil)

/-- C3 counterexample: with two `lang="en"` descendants under
`example-sentence-b`, the produced pair's target text is the SECOND (last)
span's text, not the first's, refuting the claim that the first is used. -/
theorem C3_counterexample :
    extractExample exampleTreeTwoEn =
      some ⟨"猫がいる。", "Second translation."⟩ ∧
    ("Second translation." : String) ≠ "There is a cat." := by decide

/-- Witness for C3 at the specification's concrete example. -/
theorem C3_example_pair_last_english_witness :
    ("猫がいる。" : String) ≠ "" ∧
    extractExample (.cons (mkExampleA "猫がいる。")
        (.cons (mkExampleB (mkSpanList ["There is a cat."])) .nil)) =
      some ⟨"猫がいる。", (["There is a cat."] : List String).getLastD ""⟩ :=
  ⟨by decide,
    C3_example_pair_last_english "猫がいる。" ["There is a cat."] (by decide)⟩

/-! ### SQLite adapter, bulk term search (source: `SQLiteAdapter.findTermsBulk`
and `_createTermResult` / `_splitField` in `sqlite-adapter.js`).
The `terms` table is embedded as a list of rows; the store collaborator's
equality query (`col = ?`) is a filter on field equality and its prefix query
(`col LIKE ? || '%'`) is a filter on a starts-with test, as assumed by the
specification's external-interface contract. The enabled-dictionary map is
embedded as its key list in insertion order. -/

/-- A row of the `terms` table. `sequence` is nullable (`DEFAULT -1`). -/
structure TermRow where
  id : Nat
  dictionary : String
  expression : String
  reading : String
  expressionReverse : String
  readingReverse : String
  definitionTags : String
  rules : String
  score : Int
  glossary : String
  sequence : Option Int
  termTags : String
deriving DecidableEq

/-- A `TermEntry` result as assembled by `_createTermResult`. The `definitions`
payload (`_parseJson(row.glossary)`) is carried as the raw glossary text: its
JSON decoding belongs to the excluded store boundary. -/
structure TermEntry where
  index : Nat
  matchType : String
  matchSource : String
  term : String
  reading : String
  definitionTags : List String
  termTags : List String
  rules : List String
  definitions : String
  score : Int
  dictionary : String
  id : Nat
  sequence : Int
deriving DecidableEq

/-- Embeds `_splitField`: a falsy (empty) field yields `[]`, otherwise the
field is split on spaces and empty items are dropped. -/
def splitField (field : String) : List String :=
  if field = "" then []
  else (field.splitOn " ").filter fun item => decide (0 < item.length)

/-- Embeds `_createTermResult`. -/
def createTermResult (row : TermRow) (index : Nat) (matchSource : String)
    (matchType : String) : TermEntry :=
  { index := index
    matchType := matchType
    matchSource := matchSource
    term := row.expression
    reading := row.reading
    definitionTags := splitField row.definitionTags
    termTags := splitField row.termTags
    rules := splitField row.rules
    definitions := row.glossary
    score := row.score
    dictionary := row.dictionary
    id := row.id
    sequence := row.sequence.getD (-1) }

/-- The starts-with comparison implementing the store's prefix (`LIKE 'x%'`)
query. -/
def strStartsWith (value needle : String) : Bool :=
  needle.data.isPrefixOf value.data

/-- The value of the named column of a row, for the four columns
`findTermsBulk` scans. -/
def columnValue (row : TermRow) (column : String) : String :=
  if column = "expression" then row.expression
  else if column = "reading" then row.reading
  else if column = "expressionReverse" then row.expressionReverse
  else row.readingReverse

/-- One prepared-and-executed query of `findTermsBulk`: equality on the column
for `exact` (and for the unknown-strategy fallback), starts-with for `prefix`
and for `suffix`, always restricted to the enabled dictionary names. -/
def queryRows (store : List TermRow) (matchType column term : String)
    (dictionaryNames : List String) : List TermRow :=
  if matchType = "exact" then
    store.filter fun row =>
      decide (columnValue row column = term) && decide (row.dictionary ∈ dictionaryNames)
  else if matchType = "prefix" then
    store.filter fun row =>
      strStartsWith (columnValue row column) term && decide (row.dictionary ∈ dictionaryNames)
  else if matchType = "suffix" then
    store.filter fun row =>
      strStartsWith (columnValue row column) term && decide (row.dictionary ∈ dictionaryNames)
  else
    store.filter fun row =>
      decide (columnValue row column = term) && decide (row.dictionary ∈ dictionaryNames)

/-- The inner row loop of `findTermsBulk`: rows whose id was already visited
are skipped; otherwise the id is recorded, the actual match type is upgraded
to `"exact"` when the unreversed matched value (`row.expression` for the first
column, `row.reading` for the second) equals the term, and a result is pushed.
Returns the pushed results and the updated visited set. -/
def processRows (matchType : String) (itemIndex : Nat) (term : String)
    (indexIndex : Nat) :
    List TermRow → List Nat → List TermEntry × List Nat
  | [], visited => ([], visited)
  | row :: rest, visited =>
    if row.id ∈ visited then
      processRows matchType itemIndex term indexIndex rest visited
    else
      let matchSource := if indexIndex = 0 then "term" else "reading"
      let matchValue := if indexIndex = 0 then row.expression else row.reading
      let actualMatchType := if matchValue = term then "exact" else matchType
      let next := processRows matchType itemIndex term indexIndex rest (row.id :: visited)
      (createTermResult row itemIndex matchSource actualMatchType :: next.1, next.2)

/-- The column loop of `findTermsBulk` for one term: one query per column,
processed in order, threading the visited set. -/
def scanColumns (store : List TermRow) (matchType : String)
    (dictionaryNames : List String) (itemIndex : Nat) (term : String) :
    Nat → List String → List Nat → List TermEntry × List Nat
  | _, [], visited => ([], visited)
  | indexIndex, column :: restColumns, visited =>
    let rows := queryRows store matchType column term dictionaryNames
    let step := processRows matchType itemIndex term indexIndex rows visited
    let next := scanColumns store matchType dictionaryNames itemIndex term
      (indexIndex + 1) restColumns step.2
    (step.1 ++ next.1, next.2)

/-- The term loop of `findTermsBulk`, threading the visited set across terms. -/
def scanTerms (store : List TermRow) (matchType : String)
    (dictionaryNames : List String) (columns : List String) :
    Nat → List String → List Nat → List TermEntry × List Nat
  | _, [], visited => ([], visited)
  | itemIndex, term :: restTerms, visited =>
    let step := scanColumns store matchType dictionaryNames itemIndex term 0 columns visited
    let next := scanTerms store matchType dictionaryNames columns
      (itemIndex + 1) restTerms step.2
    (step.1 ++ next.1, next.2)

/-- Embeds `findTermsBulk`: early return on an empty term list or an empty
enabled-dictionary key list; the scanned columns are the reversed pair for
`suffix` and the forward pair otherwise; note the term itself (UNREVERSED) is
what each query compares against, for every strategy. -/
def findTermsBulk (store : List TermRow) (termList : List String)
    (dictionaryNames : List String) (matchType : String) : List TermEntry :=
  if termList.isEmpty then [] else
  if dictionaryNames.isEmpty then [] else
  let columns := if matchType = "suffix"
    then ["expressionReverse", "readingReverse"]
    else ["expression", "reading"]
  (scanTerms store matchType dictionaryNames columns 0 termList []).1

/-- The number of store queries `findTermsBulk` prepares and executes: zero on
either early return, otherwise one per (term, column) pair. -/
def findTermsBulkQueryCount (termList : List String)
    (dictionaryNames : List String) (matchType : String) : Nat :=
  if termList.isEmpty then 0 else
  if dictionaryNames.isEmpty then 0 else
  let columns := if matchType = "suffix"
    then ["expressionReverse", "readingReverse"]
    else ["expression", "reading"]
  termList.length * columns.length

/-! ### C6: identity dedup across one `findTermsBulk` call. -/

/-- The invariant threaded through the scan loops: the visited set only grows,
every produced result's id is recorded and was not previously visited, and the
produced ids are pairwise distinct. -/
def ScanInvariant (visited : List Nat) (p : List TermEntry × List Nat) : Prop :=
  (∀ n, n ∈ visited → n ∈ p.2) ∧
  (∀ e ∈ p.1, e.id ∈ p.2 ∧ e.id ∉ visited) ∧
  (p.1.map fun e => e.id).Nodup

theorem scanInvariant_comp {v v1 v2 : List Nat} {r1 r2 : List TermEntry}
    (h1 : ScanInvariant v (r1, v1)) (h2 : ScanInvariant v1 (r2, v2)) :
    ScanInvariant v (r1 ++ r2, v2) := by
  obtain ⟨ha1, hb1, hc1⟩ := h1
  obtain ⟨ha2, hb2, hc2⟩ := h2
  refine ⟨fun n hn => ha2 n (ha1 n hn), ?_, ?_⟩
  · intro e he
    rcases List.mem_append.mp he with he | he
    · exact ⟨ha2 _ (hb1 e he).1, (hb1 e he).2⟩
    · exact ⟨(hb2 e he).1, fun hv => (hb2 e he).2 (ha1 _ hv)⟩
  · rw [List.map_append, List.nodup_append]
    refine ⟨hc1, hc2, ?_⟩
    intro a ha hab
    obtain ⟨e, he, rfl⟩ := List.mem_map.mp ha
    obtain ⟨f, hf, hfe⟩ := List.mem_map.mp hab
    exact (hb2 f hf).2 (by rw [hfe]; exact (hb1 e he).1)

theorem processRows_inv (mt : String) (i : Nat) (t : String) (ii : Nat) :
    ∀ (rows : List TermRow) (visited : List Nat),
      ScanInvariant visited (processRows mt i t ii rows visited) := by
  intro rows
  induction rows with
  | nil =>
    intro visited
    exact ⟨fun n hn => hn, by simp [processRows], by simp [processRows]⟩
  | cons row rest ih =>
    intro visited
    by_cases hv : row.id ∈ visited
    · simpa only [processRows, if_pos hv] using ih visited
    · simp only [processRows, if_neg hv]
      obtain ⟨ha, hb, hc⟩ := ih (row.id :: visited)
      refine ⟨?_, ?_, ?_⟩
      · intro n hn
        exact ha n (List.mem_cons_of_mem _ hn)
      · intro e he
        rcases List.mem_cons.mp he with rfl | he
        · exact ⟨ha row.id (by simp [createTermResult]), by
            simpa [createTermResult] using hv⟩
        · exact ⟨(hb e he).1, fun hmem => (hb e he).2 (List.mem_cons_of_mem _ hmem)⟩
      · simp only [List.map_cons, List.nodup_cons]
        refine ⟨?_, hc⟩
        intro hmem
        obtain ⟨e, he, heid⟩ := List.mem_map.mp hmem
        refine (hb e he).2 ?_
        rw [heid]
        simp [createTermResult]

theorem scanColumns_inv (store : List TermRow) (mt : String)
    (names : List String) (i : Nat) (t : String) :
    ∀ (cols : List String) (ii : Nat) (visited : List Nat),
      ScanInvariant visited (scanColumns store mt names i t ii cols visited) := by
  intro cols
  induction cols with
  | nil =>
    intro ii visited
    exact ⟨fun n hn => hn, by simp [scanColumns], by simp [scanColumns]⟩
  | cons c rest ih =>
    intro ii visited
    simp only [scanColumns]
    exact scanInvariant_comp
      (processRows_inv mt i t ii (queryRows store mt c t names) visited)
      (ih (ii + 1) _)

theorem scanTerms_inv (store : List TermRow) (mt : String)
    (names : List String) (columns : List String) :
    ∀ (terms : List String) (i0 : Nat) (visited : List Nat),
      ScanInvariant visited (scanTerms store mt names columns i0 terms visited) := by
  intro terms
  induction terms with
  | nil =>
    intro i0 visited
    exact ⟨fun n hn => hn, by simp [scanTerms], by simp [scanTerms]⟩
  | cons t rest ih =>
    intro i0 visited
    simp only [scanTerms]
    exact scanInvariant_comp
      (scanColumns_inv store mt names i0 t columns 0 visited)
      (ih (i0 + 1) _)

/-- The entry built for one raw hit of the scan, in the context of one
(term, column) pair: exactly what the body of the row loop pushes. -/
def hitEntry (matchType : String) (itemIndex : Nat) (term : String)
    (indexIndex : Nat) (row : TermRow) : TermEntry :=
  createTermResult row itemIndex
    (if indexIndex = 0 then "term" else "reading")
    (if (if indexIndex = 0 then row.expression else row.reading) = term
      then "exact" else matchType)

/-- The raw hit stream of the column loop for one term, before identity dedup:
for each column in order (headword field first), every matching row in store
order. -/
def hitStreamColumns (store : List TermRow) (matchType : String)
    (names : List String) (itemIndex : Nat) (term : String) :
    Nat → List String → List TermEntry
  | _, [] => []
  | indexIndex, column :: restColumns =>
    (queryRows store matchType column term names).map
        (hitEntry matchType itemIndex term indexIndex)
      ++ hitStreamColumns store matchType names itemIndex term
        (indexIndex + 1) restColumns

/-- The raw hit stream of the whole scan, before identity dedup: earlier
lookup units first, field-scan order within a unit. -/
def hitStreamTerms (store : List TermRow) (matchType : String)
    (names : List String) (columns : List String) :
    Nat → List String → List TermEntry
  | _, [] => []
  | itemIndex, term :: restTerms =>
    hitStreamColumns store matchType names itemIndex term 0 columns
      ++ hitStreamTerms store matchType names columns (itemIndex + 1) restTerms

/-- The raw hit stream of one `findTermsBulk` call: all hits in scan order
(earlier lookup units first, headword field before reading field, store order
within a query), with no identity dedup applied. -/
def findTermsBulkHits (store : List TermRow) (termList : List String)
    (dictionaryNames : List String) (matchType : String) : List TermEntry :=
  if termList.isEmpty then [] else
  if dictionaryNames.isEmpty then [] else
  let columns := if matchType = "suffix"
    then ["expressionReverse", "readingReverse"]
    else ["expression", "reading"]
  hitStreamTerms store matchType dictionaryNames columns 0 termList

/-- First-occurrence-wins identity dedup, the reference the scan refines: an
entry whose row id was already seen is skipped, otherwise it is kept and its
id recorded — so of several hits on one row id the FIRST in stream order
survives. -/
def dedupById : List TermEntry → List Nat → List TermEntry
  | [], _ => []
  | e :: rest, visited =>
    if e.id ∈ visited then dedupById rest visited
    else e :: dedupById rest (e.id :: visited)

/-- The visited set after running the reference dedup over a stream. -/
def seenAfter : List TermEntry → List Nat → List Nat
  | [], visited => visited
  | e :: rest, visited =>
    if e.id ∈ visited then seenAfter rest visited
    else seenAfter rest (e.id :: visited)

theorem dedupById_append (l1 l2 : List TermEntry) :
    ∀ v, dedupById (l1 ++ l2) v = dedupById l1 v ++ dedupById l2 (seenAfter l1 v) := by
  induction l1 with
  | nil => intro v; rfl
  | cons e rest ih =>
    intro v
    by_cases h : e.id ∈ v <;> simp [dedupById, seenAfter, h, ih]

theorem seenAfter_append (l1 l2 : List TermEntry) :
    ∀ v, seenAfter (l1 ++ l2) v = seenAfter l2 (seenAfter l1 v) := by
  induction l1 with
  | nil => intro v; rfl
  | cons e rest ih =>
    intro v
    by_cases h : e.id ∈ v <;> simp [seenAfter, h, ih]

theorem processRows_eq_dedup (mt : String) (i : Nat) (t : String) (ii : Nat) :
    ∀ (rows : List TermRow) (visited : List Nat),
      processRows mt i t ii rows visited =
        (dedupById (rows.map (hitEntry mt i t ii)) visited,
         seenAfter (rows.map (hitEntry mt i t ii)) visited) := by
  intro rows
  induction rows with
  | nil => intro visited; rfl
  | cons row rest ih =>
    intro visited
    by_cases h : row.id ∈ visited <;>
      simp [processRows, dedupById, seenAfter, h, ih, hitEntry, createTermResult]

theorem scanColumns_eq_dedup (store : List TermRow) (mt : String)
    (names : List String) (i : Nat) (t : String) :
    ∀ (cols : List String) (ii : Nat) (visited : List Nat),
      scanColumns store mt names i t ii cols visited =
        (dedupById (hitStreamColumns store mt names i t ii cols) visited,
         seenAfter (hitStreamColumns store mt names i t ii cols) visited) := by
  intro cols
  induction cols with
  | nil => intro ii visited; rfl
  | cons c rest ih =>
    intro ii visited
    simp [scanColumns, hitStreamColumns, processRows_eq_dedup, ih,
      dedupById_append, seenAfter_append]

theorem scanTerms_eq_dedup (store : List TermRow) (mt : String)
    (names : List String) (columns : List String) :
    ∀ (terms : List String) (i0 : Nat) (visited : List Nat),
      scanTerms store mt names columns i0 terms visited =
        (dedupById (hitStreamTerms store mt names columns i0 terms) visited,
         seenAfter (hitStreamTerms store mt names columns i0 terms) visited) := by
  intro terms
  induction terms with
  | nil => intro i0 visited; rfl
  | cons t rest ih =>
    intro i0 visited
    simp [scanTerms, hitStreamTerms, scanColumns_eq_dedup, ih,
      dedupById_append, seenAfter_append]

theorem findTermsBulk_eq_dedup (store : List TermRow)
    (termList dictionaryNames : List String) (matchType : String) :
    findTermsBulk store termList dictionaryNames matchType =
      dedupById (findTermsBulkHits store termList dictionaryNames matchType) [] := by
  unfold findTermsBulk findTermsBulkHits
  by_cases h1 : termList.isEmpty
  · simp [h1, dedupById]
  · by_cases h2 : dictionaryNames.isEmpty
    · simp [h1, h2, dedupById]
    · simp only [if_neg h1, if_neg h2]
      rw [scanTerms_eq_dedup]

theorem dedupById_mem_find? (l : List TermEntry) :
    ∀ (v : List Nat) (e : TermEntry), e ∈ dedupById l v →
      e.id ∉ v ∧ l.find? (fun x => x.id == e.id) = some e := by
  induction l with
  | nil => intro v e he; simp [dedupById] at he
  | cons h t ih =>
    intro v e he
    by_cases hv : h.id ∈ v
    · simp only [dedupById, if_pos hv] at he
      obtain ⟨hnv, hfind⟩ := ih v e he
      have hne : h.id ≠ e.id := fun heq => hnv (heq ▸ hv)
      refine ⟨hnv, ?_⟩
      rw [List.find?_cons_of_neg _ (by simp [hne])]
      exact hfind
    · simp only [dedupById, if_neg hv] at he
      rcases List.mem_cons.mp he with rfl | he
      · exact ⟨hv, by rw [List.find?_cons_of_pos _ (by simp)]⟩
      · obtain ⟨hnv, hfind⟩ := ih (h.id :: v) e he
        have hne : h.id ≠ e.id := fun heq => hnv (by simp [heq])
        refine ⟨fun hev => hnv (List.mem_cons_of_mem _ hev), ?_⟩
        rw [List.find?_cons_of_neg _ (by simp [hne])]
        exact hfind

/-- C6: one `findTermsBulk` call never returns two results carrying the same
store row id, for every store, term list, enabled-dictionary list and match
strategy; moreover the call equals the first-occurrence-wins reference dedup
of the raw hit stream (earlier lookup units first, headword field before
reading field), and every returned result IS the first hit bearing its row id
in that stream — later hits on the same row id are skipped. -/
theorem C6_identity_dedup_first_wins (store : List TermRow)
    (termList dictionaryNames : List String) (matchType : String) :
    (findTermsBulk store termList dictionaryNames matchType).Pairwise
      (fun a b => a.id ≠ b.id) ∧
    findTermsBulk store termList dictionaryNames matchType =
      dedupById (findTermsBulkHits store termList dictionaryNames matchType) [] ∧
    ∀ e ∈ findTermsBulk store termList dictionaryNames matchType,
      (findTermsBulkHits store termList dictionaryNames matchType).find?
        (fun x => x.id == e.id) = some e := by
  refine ⟨?_, findTermsBulk_eq_dedup store termList dictionaryNames matchType, ?_⟩
  · unfold findTermsBulk
    by_cases h1 : termList.isEmpty
    · simp [h1]
    · by_cases h2 : dictionaryNames.isEmpty
      · simp [h1, h2]
      · simp only [if_neg h1, if_neg h2]
        have hinv := scanTerms_inv store matchType dictionaryNames
          (if matchType = "suffix"
            then ["expressionReverse", "readingReverse"]
            else ["expression", "reading"]) termList 0 []
        exact List.pairwise_map.mp hinv.2.2
  · intro e he
    rw [findTermsBulk_eq_dedup] at he
    exact (dedupById_mem_find? _ [] e he).2

/-- The row of the C6 witness: its headword and reading coincide, so an exact
search hits it twice, once per scanned field. -/
def rowDoubleHit : TermRow :=
  { id := 9, dictionary := "D", expression := "ab", reading := "ab"
    expressionReverse := "ba", readingReverse := "ba"
    definitionTags := "", rules := "", score := 0, glossary := ""
    sequence := none, termTags := "" }

/-- The surviving entry of the C6 witness: built from the FIRST hit, the
headword-field scan. -/
def entryDoubleHit : TermEntry := createTermResult rowDoubleHit 0 "term" "exact"

/-- Witness for C6: the raw stream holds two hits on row id 9 (headword field
then reading field); the returned entry is the first of them. -/
theorem C6_identity_dedup_first_wins_witness :
    entryDoubleHit ∈ findTermsBulk [rowDoubleHit] ["ab"] ["D"] "exact" ∧
    (findTermsBulkHits [rowDoubleHit] ["ab"] ["D"] "exact").map
      (fun e => (e.id, e.matchSource)) = [(9, "term"), (9, "reading")] ∧
    (findTermsBulkHits [rowDoubleHit] ["ab"] ["D"] "exact").find?
      (fun x => x.id == entryDoubleHit.id) = some entryDoubleHit :=
  ⟨by decide, by decide,
    (C6_identity_dedup_first_wins [rowDoubleHit] ["ab"] ["D"] "exact").2.2
      entryDoubleHit (by decide)⟩

/-! ### C2: upgrade of the reported match type to exact. -/

theorem processRows_fields (mt : String) (i : Nat) (t : String) (ii : Nat) :
    ∀ (rows : List TermRow) (visited : List Nat) (e : TermEntry),
      e ∈ (processRows mt i t ii rows visited).1 →
      e.index = i ∧
      (e.matchSource = "term" → e.term = t → e.matchType = "exact") ∧
      (e.matchSource = "reading" → e.reading = t → e.matchType = "exact") := by
  intro rows
  induction rows with
  | nil => intro visited e he; simp [processRows] at he
  | cons row rest ih =>
    intro visited e he
    by_cases hv : row.id ∈ visited
    · rw [show processRows mt i t ii (row :: rest) visited =
        processRows mt i t ii rest visited by
          simp only [processRows, if_pos hv]] at he
      exact ih visited e he
    · simp only [processRows, if_neg hv] at he
      rcases List.mem_cons.mp he with rfl | he
      · refine ⟨by simp [createTermResult], ?_, ?_⟩
        · intro hs ht
          by_cases hii : ii = 0
          · simp only [createTermResult, hii, if_pos rfl] at ht ⊢
            simp [ht]
          · simp only [createTermResult, if_neg hii] at hs
            exact absurd hs (by decide)
        · intro hs ht
          by_cases hii : ii = 0
          · simp only [createTermResult, hii, if_pos rfl] at hs
            exact absurd hs (by decide)
          · simp only [createTermResult, if_neg hii] at ht ⊢
            simp [ht]
      · exact ih (row.id :: visited) e he

theorem scanColumns_fields (store : List TermRow) (mt : String)
    (names : List String) (i : Nat) (t : String) :
    ∀ (cols : List String) (ii : Nat) (visited : List Nat) (e : TermEntry),
      e ∈ (scanColumns store mt names i t ii cols visited).1 →
      e.index = i ∧
      (e.matchSource = "term" → e.term = t → e.matchType = "exact") ∧
      (e.matchSource = "reading" → e.reading = t → e.matchType = "exact") := by
  intro cols
  induction cols with
  | nil => intro ii visited e he; simp [scanColumns] at he
  | cons c rest ih =>
    intro ii visited e he
    simp only [scanColumns] at he
    rcases List.mem_append.mp he with he | he
    · exact processRows_fields mt i t ii _ visited e he
    · exact ih (ii + 1) _ e he

theorem scanTerms_fields (store : List TermRow) (mt : String)
    (names : List String) (columns : List String) :
    ∀ (terms : List String) (i0 : Nat) (visited : List Nat) (e : TermEntry),
      e ∈ (scanTerms store mt names columns i0 terms visited).1 →
      ∃ u, terms[e.index - i0]? = some u ∧ i0 ≤ e.index ∧
        (e.matchSource = "term" → e.term = u → e.matchType = "exact") ∧
        (e.matchSource = "reading" → e.reading = u → e.matchType = "exact") := by
  intro terms
  induction terms with
  | nil => intro i0 visited e he; simp [scanTerms] at he
  | cons t rest ih =>
    intro i0 visited e he
    simp only [scanTerms] at he
    rcases List.mem_append.mp he with he | he
    · obtain ⟨hidx, himpT, himpR⟩ := scanColumns_fields store mt names i0 t
        columns 0 visited e he
      refine ⟨t, ?_, by omega, himpT, himpR⟩
      rw [hidx]
      simp
    · obtain ⟨u, hu, hle, himpT, himpR⟩ := ih (i0 + 1) _ e he
      refine ⟨u, ?_, by omega, himpT, himpR⟩
      have hstep : e.index - i0 = (e.index - (i0 + 1)) + 1 := by omega
      rw [hstep, List.getElem?_cons_succ]
      exact hu

/-- C2 (amended): a returned result is reported `"exact"` whenever the
UNREVERSED field it was matched on — the headword when `matchSource` is
`"term"`, the reading when it is `"reading"` — equals its lookup unit, for
every strategy. For suffix search the code compares the unreversed
`expression`/`reading` (not the scanned reversed column) against the unit, so
equality of the scanned reversed field with the unit does NOT imply an exact
report (see the counterexample). -/
theorem C2_full_match_reported_exact (store : List TermRow)
    (termList dictionaryNames : List String) (matchType : String) (e : TermEntry)
    (he : e ∈ findTermsBulk store termList dictionaryNames matchType)
    (u : String) (hu : termList[e.index]? = some u)
    (hsrc : (e.matchSource = "term" ∧ e.term = u) ∨
      (e.matchSource = "reading" ∧ e.reading = u)) :
    e.matchType = "exact" := by
  unfold findTermsBulk at he
  by_cases h1 : termList.isEmpty
  · simp [h1] at he
  · by_cases h2 : dictionaryNames.isEmpty
    · simp [h1, h2] at he
    · simp only [if_neg h1, if_neg h2] at he
      obtain ⟨u', hu', _, himpT, himpR⟩ := scanTerms_fields store matchType
        dictionaryNames _ termList 0 [] e he
      rw [Nat.sub_zero, hu] at hu'
      obtain rfl := Option.some.inj hu'
      rcases hsrc with ⟨hs, ht⟩ | ⟨hs, ht⟩
      · exact himpT hs ht
      · exact himpR hs ht

/-- The row of the C2 counterexample: its reversed headword `"ba"` equals the
lookup unit while its unreversed headword `"ab"` does not. -/
def rowSuffixCex : TermRow :=
  { id := 1, dictionary := "D", expression := "ab", reading := "r"
    expressionReverse := "ba", readingReverse := "r"
    definitionTags := "", rules := "", score := 0, glossary := ""
    sequence := some 7, termTags := "" }

/-- C2 counterexample: under suffix strategy the scanned field is
`expressionReverse`, which equals the lookup unit `"ba"` exactly, yet the
produced MatchResult reports `"suffix"`, not `"exact"` — the upgrade test uses
the unreversed headword `"ab"`. -/
theorem C2_counterexample :
    (findTermsBulk [rowSuffixCex] ["ba"] ["D"] "suffix").map
      (fun e => (e.id, e.matchSource, e.matchType)) = [(1, "term", "suffix")] ∧
    rowSuffixCex.expressionReverse = "ba" ∧
    ("suffix" : String) ≠ "exact" := by decide

/-- The row of the C2 witness: a prefix search whose hit happens to be a full
headword match. -/
def rowPrefixFull : TermRow :=
  { id := 3, dictionary := "DW", expression := "abc", reading := "x"
    expressionReverse := "cba", readingReverse := "x"
    definitionTags := "", rules := "", score := 0, glossary := ""
    sequence := none, termTags := "" }

/-- The entry produced for `rowPrefixFull` by the witness search. -/
def entryPrefixFull : TermEntry := createTermResult rowPrefixFull 0 "term" "exact"

/-- Witness for C2 at a concrete prefix search with a full match. -/
theorem C2_full_match_reported_exact_witness :
    entryPrefixFull ∈ findTermsBulk [rowPrefixFull] ["abc"] ["DW"] "prefix" ∧
    entryPrefixFull.matchType = "exact" :=
  ⟨by decide,
    C2_full_match_reported_exact [rowPrefixFull] ["abc"] ["DW"] "prefix"
      entryPrefixFull (by decide) "abc" (by decide) (Or.inl ⟨rfl, rfl⟩)⟩

/-! ### C7: empty inputs return empty with no store access. -/

/-- C7: with an empty term list or an empty enabled-dictionary list,
`findTermsBulk` returns the empty result (for every store, hence without
depending on the store at all) and prepares zero queries; being a total
function of its inputs, it raises no error. -/
theorem C7_empty_inputs_no_access (store : List TermRow)
    (termList dictionaryNames : List String) (matchType : String)
    (h : termList = [] ∨ dictionaryNames = []) :
    findTermsBulk store termList dictionaryNames matchType = [] ∧
    findTermsBulkQueryCount termList dictionaryNames matchType = 0 := by
  rcases h with rfl | rfl
  · constructor <;> simp [findTermsBulk, findTermsBulkQueryCount]
  · constructor <;> simp [findTermsBulk, findTermsBulkQueryCount]

/-- Witness for C7 with a non-empty store and term list but no enabled
dictionaries. -/
theorem C7_empty_inputs_no_access_witness :
    ((["a"] : List String) = [] ∨ ([] : List String) = []) ∧
    findTermsBulk [rowPrefixFull] ["a"] [] "exact" = [] ∧
    findTermsBulkQueryCount ["a"] [] "exact" = 0 :=
  ⟨Or.inr rfl,
    C7_empty_inputs_no_access [rowPrefixFull] ["a"] [] "exact" (Or.inr rfl)⟩

/-! ### C4: suffix search versus the naive ends-with reference. -/

/-- Character-level string reversal, as used to populate the precomputed
`expressionReverse`/`readingReverse` columns. -/
def strReverse (s : String) : String :=
  ⟨s.data.reverse⟩

/-- The ends-with comparison of the naive reference. -/
def strEndsWith (value needle : String) : Bool :=
  needle.data.isSuffixOf value.data

/-- Modelled from the spec: the naive suffix reference — the rows of the
enabled dictionaries whose unreversed headword or reading ends with some
lookup unit ("suffix search results must equal the set obtained by naive
ends-with filtering over all enabled-dictionary rows"). -/
def naiveSuffixSearch (store : List TermRow) (termList : List String)
    (dictionaryNames : List String) : List TermRow :=
  store.filter fun row =>
    decide (row.dictionary ∈ dictionaryNames) &&
      termList.any fun term =>
        strEndsWith row.expression term || strEndsWith row.reading term

/-- The failing row for C4: expression `"ab"` with its correctly precomputed
reverse `"ba"`. -/
def rowSuffixBug : TermRow :=
  { id := 2, dictionary := "D", expression := "ab", reading := "r"
    expressionReverse := "ba", readingReverse := "r"
    definitionTags := "", rules := "", score := 0, glossary := ""
    sequence := none, termTags := "" }

/-- C4 evaluation at the failing input: the store satisfies the
precomputed-reverse invariant and its single row ends with the lookup unit
`"ab"`, so the naive ends-with reference returns it — but the code's suffix
search returns nothing, because it feeds the UNREVERSED unit to the prefix
query on the reversed columns (`"ba"`/`"r"` do not start with `"ab"`). -/
theorem C4_suffix_bug_eval :
    strReverse rowSuffixBug.expression = rowSuffixBug.expressionReverse ∧
    strReverse rowSuffixBug.reading = rowSuffixBug.readingReverse ∧
    naiveSuffixSearch [rowSuffixBug] ["ab"] ["D"] = [rowSuffixBug] ∧
    findTermsBulk [rowSuffixBug] ["ab"] ["D"] "suffix" = [] := by decide

end YomitanApi
